import Mathlib

/-!
Verification model of an SSE (Server-Sent-Events) stream parsing library.

The library has two parsing stages and a consumption adapter:
* `splitStream` buffers incoming text chunks and splits the cumulative
  buffer on the double newline event separator, emitting every complete
  segment (dropping blank ones) and retaining the last segment;
  on upstream completion it flushes the remaining buffer if non-blank.
* `splitEventPart` parses one event block into a field map: lines are
  split on a single newline, each line is split at the first colon,
  the value is trimmed, lines without a colon and empty keys are skipped,
  and a block producing an empty map emits nothing.
* The consumption adapter exposes a pull-style iterator (skipping falsy
  values), a push-style `subscribe` with cooperative cancellation, and
  `collectAll` built on top of `subscribe`.

Text is modelled as `List Char`; JS string operations (`split`, `trim`,
`indexOf`, `substring`, `includes`) are modelled by executable Lean
functions on character lists.
-/

namespace SSE

/-- The set of characters removed by the JS `String.prototype.trim`:
ASCII whitespace, NBSP, BOM and the Unicode space separators. -/
def isJsWhitespace (c : Char) : Bool :=
  c = ' ' || c = '\t' || c = '\n' || c = '\r' || c = '\x0b' || c = '\x0c' ||
  c = '\u00a0' || c = '\ufeff' || c = '\u1680' ||
  ('\u2000' ≤ c && c ≤ '\u200a') ||
  c = '\u2028' || c = '\u2029' || c = '\u202f' || c = '\u205f' || c = '\u3000'

/-- JS `s.trim()`: remove leading and trailing whitespace. -/
def jsTrim (s : List Char) : List Char :=
  ((s.dropWhile isJsWhitespace).reverse.dropWhile isJsWhitespace).reverse

/-- The `isValidString` helper of the library: the trimmed string is non-empty
(the `str == null` guard is vacuous for an actual string). -/
def isValidString (s : List Char) : Bool :=
  !(jsTrim s).isEmpty

/-- Prepend a character to the first piece of a split result
(used to state the recursion of the splitting functions). -/
def consHead (c : Char) : List (List Char) → List (List Char)
  | [] => [[c]]
  | p :: ps => (c :: p) :: ps

/-- JS `s.split('\n\n')`: leftmost, non-overlapping splitting on the
double newline stream separator. -/
def splitNN : List Char → List (List Char)
  | [] => [[]]
  | [c] => [[c]]
  | c₁ :: c₂ :: rest =>
    if c₁ = '\n' ∧ c₂ = '\n' then [] :: splitNN rest
    else consHead c₁ (splitNN (c₂ :: rest))

/-- JS `s.split('\n')`: splitting on the single newline part separator. -/
def splitLines : List Char → List (List Char)
  | [] => [[]]
  | c :: rest =>
    if c = '\n' then [] :: splitLines rest
    else consHead c (splitLines rest)

/-- JS `parts[parts.length - 1]` (the empty string on an empty array,
which never occurs: `split` always returns a non-empty array). -/
def lastPart : List (List Char) → List Char
  | [] => []
  | [p] => p
  | _ :: q :: ps => lastPart (q :: ps)

/-- One call of the `transform` callback of `splitStream`: append the
chunk to the buffer, split on the double newline, enqueue every complete
part that is a valid (non-blank) string, and keep the last part as the
new buffer.  Returns (enqueued blocks, new buffer). -/
def splitStreamTransform (buffer chunk : List Char) : List (List Char) × List Char :=
  let parts := splitNN (buffer ++ chunk)
  (parts.dropLast.filter isValidString, lastPart parts)

/-- The `flush` callback of `splitStream`: enqueue the buffer if it is a
valid (non-blank) string.  The code does not reassign `buffer`, so the
buffer after the flush is returned unchanged. -/
def splitStreamFlush (buffer : List Char) : List (List Char) × List Char :=
  ((if isValidString buffer then [buffer] else []), buffer)

/-- Feed a sequence of chunks through the transform of `splitStream` starting
from the given buffer; returns (all enqueued blocks in order, final buffer). -/
def feedAll (buffer : List Char) : List (List Char) → List (List Char) × List Char
  | [] => ([], buffer)
  | c :: cs =>
    let r := splitStreamTransform buffer c
    let rest := feedAll r.2 cs
    (r.1 ++ rest.1, rest.2)

/-- The complete splitter stage on a chunk sequence: start with an empty
buffer, feed every chunk, then flush. -/
def runSplitStream (chunks : List (List Char)) : List (List Char) :=
  let r := feedAll [] chunks
  r.1 ++ (splitStreamFlush r.2).1

/-- Convenience: the characters of a string literal. -/
def toL (s : String) : List Char := s.toList

example : splitNN (toL "a\n\nb") = [toL "a", toL "b"] := by decide
example : splitNN (toL "\n\n\n") = [[], toL "\n"] := by decide
example : splitNN (toL "") = [[]] := rfl
example : runSplitStream [toL "ev", toL "ent: a\n\ndata: b\n\n"] =
    [toL "event: a", toL "data: b"] := by decide

/-- The parsed representation of one event block: a JS object modelled
as an association list whose keys are in property creation order
(observable enumeration order is derived from it by `jsKeys`). -/
abbrev SSEObject := List (List Char × List Char)

/-- JS `sseObject[key] = value` on a plain object: if the key is present,
its value is updated in place (position and key object unchanged);
otherwise the pair is appended at the end.  The list therefore records the
property *creation* order of the object.  The observable enumeration order
of a JS object (`Object.keys`, `for...in`, `JSON.stringify`) is not the
creation order when array-index-like keys are present: it is modelled
separately by `jsKeys` below. -/
def setField (m : SSEObject) (k v : List Char) : SSEObject :=
  if m.any (fun p => p.1 == k) then
    m.map (fun p => if p.1 == k then (p.1, v) else p)
  else m ++ [(k, v)]

/-- The body of the line loop of `splitEventPart`: skip the line (with a
logged warning) if it has no colon; otherwise split at the first colon,
trim the value, and store the field unless the key is blank. -/
def processLine (obj : SSEObject) (line : List Char) : SSEObject :=
  if !(line.contains ':') then obj
  else
    let colonIndex := line.findIdx (fun c => c == ':')
    let key := line.take colonIndex
    let value := jsTrim (line.drop (colonIndex + 1))
    if isValidString key then setField obj key value else obj

/-- The `transform` callback of `splitEventPart`: split the block into
lines, fold the line parser over them, and enqueue the resulting object
unless it is empty (`none` models "nothing enqueued"). -/
def splitEventPart (partChunk : List Char) : Option SSEObject :=
  let lines := splitLines partChunk
  let sseObject := lines.foldl processLine []
  if sseObject.isEmpty then none else some sseObject

/-- The default two-stage pipeline on a sequence of decoded text chunks:
splitter (with final flush) followed by the field parser. -/
def runPipeline (chunks : List (List Char)) : List SSEObject :=
  (runSplitStream chunks).filterMap splitEventPart

example : splitEventPart (toL "event: message\ndata: hi") =
    some [(toL "event", toL "message"), (toL "data", toL "hi")] := by decide
example : splitEventPart (toL "   ") = none := rfl
example : runPipeline [toL "event: message\ndata: hi\n\nevent: update\ndata: ok\n\n"] =
    [[(toL "event", toL "message"), (toL "data", toL "hi")],
     [(toL "event", toL "update"), (toL "data", toL "ok")]] := by decide

/-- A JS runtime value as delivered by the stream: enough structure to
express truthiness (`null`, `undefined`, booleans, integral numbers,
strings, parsed field-map objects). -/
inductive JSValue
  | vNull
  | vUndef
  | vBool (b : Bool)
  | vNum (n : Int)
  | vStr (s : List Char)
  | vObj (m : SSEObject)
deriving DecidableEq

/-- JS truthiness of a `JSValue` (objects are always truthy; `0`, the
empty string, `false`, `null` and `undefined` are falsy). -/
def truthy : JSValue → Bool
  | .vNull => false
  | .vUndef => false
  | .vBool b => b
  | .vNum n => n != 0
  | .vStr s => !s.isEmpty
  | .vObj _ => true

/-- The outcome of one `reader.read()` before the stream is exhausted:
either a value, or a raised error.  Reading past the end of the outcome
list models `{ done: true }`. -/
inductive ReadOutcome
  | val (v : JSValue)
  | err
deriving DecidableEq

/-- Observable result of one run of the `subscribe` pump loop:
the values passed to the value-callback in order, the number of
`onComplete` invocations, and the number of `reader.read()` calls. -/
structure PumpResult where
  delivered : List JSValue
  completions : Nat
  readsDone : Nat
deriving DecidableEq

/-- The `subscribe` pump loop.  The source is the list of read outcomes
(reading past its end returns `done`).  Cancellation is modelled by the
second argument: `none` means the cancellation function is never called;
`some (t, inFlight)` means the `subscribing` flag is set to `null` after
`t` reads have been fully processed — during the await of read `t + 1`
when `inFlight` is `true` (that read completes but its value is not
delivered), or before the next loop-condition check when `inFlight` is
`false` (the callback itself cancelled; no further read starts).
The `done` and error branches call `onComplete` without consulting the
flag, exactly as the code does. -/
def pump : List ReadOutcome → Option (Nat × Bool) → PumpResult
  | _, some (0, false) => ⟨[], 0, 0⟩
  | [], _ => ⟨[], 1, 1⟩
  | .err :: _, _ => ⟨[], 1, 1⟩
  | .val _ :: _, some (0, true) => ⟨[], 0, 1⟩
  | .val v :: rest, none =>
    let r := pump rest none
    ⟨if truthy v then v :: r.delivered else r.delivered, r.completions, r.readsDone + 1⟩
  | .val v :: rest, some (t + 1, b) =>
    let r := pump rest (some (t, b))
    ⟨if truthy v then v :: r.delivered else r.delivered, r.completions, r.readsDone + 1⟩

/-- The pull-style async iterator over a finite error-free source:
`read` until `done`, skipping falsy values (`if (!value) continue`),
yielding the rest in order. -/
def iterate : List JSValue → List JSValue
  | [] => []
  | v :: rest => if truthy v then v :: iterate rest else iterate rest

/-- `collectAll`: drive an (uncancelled) subscription to exhaustion,
collecting the delivered values; the promise resolves with them when
`onComplete` fires. -/
def collectAll (outs : List ReadOutcome) : List JSValue :=
  (pump outs none).delivered

example : pump [ReadOutcome.val (.vStr (toL "a")), ReadOutcome.val .vNull] none =
    ⟨[.vStr (toL "a")], 1, 3⟩ := rfl
example : pump [ReadOutcome.val (.vStr (toL "a")), ReadOutcome.val (.vStr (toL "b"))]
    (some (1, true)) = ⟨[.vStr (toL "a")], 0, 2⟩ := rfl
example : pump [ReadOutcome.val (.vStr (toL "a")), ReadOutcome.err,
    ReadOutcome.val (.vStr (toL "b"))] none = ⟨[.vStr (toL "a")], 1, 2⟩ := rfl

/-! Observable key enumeration of a JS object.  ECMA-262
`OrdinaryOwnPropertyKeys` lists integer-index-like string keys first, in
ascending numeric order, and only then the remaining string keys in
property creation order.  The parser stores arbitrary non-blank keys, so
this order is observable on its output objects. -/

/-- Numeric value of a digit string (the keys fed to it are all-digit
strings, checked by `isArrayIndex`). -/
def keyNum (s : List Char) : Nat :=
  s.foldl (fun n c => n * 10 + (c.toNat - '0'.toNat)) 0

/-- ECMA-262 array index test for a string property key: a canonical
numeric string (digits only, no leading zero except `"0"` itself) whose
value lies in `0 .. 2^32 - 2`. -/
def isArrayIndex (s : List Char) : Bool :=
  !s.isEmpty && s.all Char.isDigit && (s == ['0'] || !(s.head? == some '0')) &&
    decide (keyNum s < 4294967295)

/-- Ordered insertion of a key by numeric value (helper of `sortKeys`). -/
def insertKey (s : List Char) : List (List Char) → List (List Char)
  | [] => [s]
  | t :: ts => if keyNum s ≤ keyNum t then s :: t :: ts else t :: insertKey s ts

/-- Sort keys in ascending numeric order (insertion sort). -/
def sortKeys : List (List Char) → List (List Char)
  | [] => []
  | s :: ss => insertKey s (sortKeys ss)

/-- The observable key enumeration of a stored object, per ECMA-262
`OrdinaryOwnPropertyKeys`: array-index-like keys first in ascending
numeric order, then all remaining keys in creation order. -/
def jsKeys (m : SSEObject) : List (List Char) :=
  sortKeys ((m.map Prod.fst).filter isArrayIndex) ++
    (m.map Prod.fst).filter (fun s => !(isArrayIndex s))

example : jsKeys [(toL "event", toL "y"), (toL "0", toL "x")] =
    [toL "0", toL "event"] := by decide
example : jsKeys [(toL "event", toL "a"), (toL "data", toL "b")] =
    [toL "event", toL "data"] := by decide
example : jsKeys [(toL "2", toL "a"), (toL "10", toL "b"), (toL "id", toL "c")] =
    [toL "2", toL "10", toL "id"] := by decide

/-! Splitter stage lemmas. -/

theorem consHead_ne_nil (c : Char) (S : List (List Char)) : consHead c S ≠ [] := by
  cases S <;> simp [consHead]

theorem splitNN_ne_nil (l : List Char) : splitNN l ≠ [] := by
  induction l using splitNN.induct with
  | case1 => simp [splitNN]
  | case2 c => simp [splitNN]
  | case3 c₁ c₂ rest h ih => simp [splitNN, h]
  | case4 c₁ c₂ rest h ih => simp only [splitNN, if_neg h]; exact consHead_ne_nil _ _

theorem splitNN_singleton (l : List Char) (p : List Char) (h : splitNN l = [p]) :
    p = l := by
  induction l using splitNN.induct generalizing p with
  | case1 => simp [splitNN] at h; exact h
  | case2 c => simp [splitNN] at h; simp [h]
  | case3 c₁ c₂ rest hc ih =>
    rw [splitNN, if_pos hc] at h
    exact absurd (List.cons_eq_cons.mp h).2 (splitNN_ne_nil rest)
  | case4 c₁ c₂ rest hc ih =>
    rw [splitNN, if_neg hc] at h
    rcases hS : splitNN (c₂ :: rest) with _ | ⟨q, qs⟩
    · exact absurd hS (splitNN_ne_nil _)
    · rw [hS, consHead] at h
      obtain ⟨h1, h2⟩ := List.cons_eq_cons.mp h
      subst h2
      rw [ih q hS] at h1
      simp [← h1]

theorem lastPart_cons (a : List Char) (S : List (List Char)) (h : S ≠ []) :
    lastPart (a :: S) = lastPart S := by
  cases S with
  | nil => exact absurd rfl h
  | cons q ps => rfl

theorem lastPart_append (A B : List (List Char)) (h : B ≠ []) :
    lastPart (A ++ B) = lastPart B := by
  induction A with
  | nil => rfl
  | cons a A ih =>
    rw [List.cons_append, lastPart_cons _ _ (by simp [h]), ih]

theorem dropLast_append_ne_nil (A B : List (List Char)) (h : B ≠ []) :
    (A ++ B).dropLast = A ++ B.dropLast := by
  induction A with
  | nil => rfl
  | cons a A ih =>
    rw [List.cons_append, List.dropLast_cons_of_ne_nil (by simp [h]), ih,
      List.cons_append]

/-- The key compositional property of leftmost double-newline splitting:
splitting `x ++ y` splits `x`, keeps all complete pieces of `x`, and
restarts on the last (possibly incomplete) piece of `x` glued to `y`. -/
theorem splitNN_append (x y : List Char) :
    splitNN (x ++ y) = (splitNN x).dropLast ++ splitNN (lastPart (splitNN x) ++ y) := by
  induction x using splitNN.induct with
  | case1 => simp [splitNN, lastPart]
  | case2 c => simp [splitNN, lastPart]
  | case3 c₁ c₂ rest hc ih =>
    obtain ⟨h1, h2⟩ := hc
    subst h1; subst h2
    have hL : splitNN (('\n' :: '\n' :: rest) ++ y) = [] :: splitNN (rest ++ y) := by
      rw [List.cons_append, List.cons_append, splitNN, if_pos ⟨rfl, rfl⟩]
    have hR : splitNN ('\n' :: '\n' :: rest) = [] :: splitNN rest := by
      rw [splitNN, if_pos ⟨rfl, rfl⟩]
    rw [hL, hR, ih, List.dropLast_cons_of_ne_nil (splitNN_ne_nil rest),
      lastPart_cons _ _ (splitNN_ne_nil rest), List.cons_append]
  | case4 c₁ c₂ rest hc ih =>
    have hL : splitNN ((c₁ :: c₂ :: rest) ++ y) = consHead c₁ (splitNN (c₂ :: (rest ++ y))) := by
      rw [List.cons_append, List.cons_append, splitNN, if_neg hc]
    have hR : splitNN (c₁ :: c₂ :: rest) = consHead c₁ (splitNN (c₂ :: rest)) := by
      rw [splitNN, if_neg hc]
    rw [hL, hR]
    have ih' : splitNN (c₂ :: (rest ++ y)) =
        (splitNN (c₂ :: rest)).dropLast ++
          splitNN (lastPart (splitNN (c₂ :: rest)) ++ y) := by
      rw [← List.cons_append]; exact ih
    rcases hS : splitNN (c₂ :: rest) with _ | ⟨p, ps⟩
    · exact absurd hS (splitNN_ne_nil _)
    rcases ps with _ | ⟨q, qs⟩
    · have hp : p = c₂ :: rest := splitNN_singleton _ _ hS
      subst hp
      rw [ih', hS, consHead]
      simp only [List.dropLast_single, List.nil_append, lastPart]
      simp only [List.cons_append]
      rw [splitNN, if_neg hc]
    · rw [ih', hS, consHead,
        @List.dropLast_cons_of_ne_nil _ (c₁ :: p) (q :: qs) (by simp),
        lastPart_cons (c₁ :: p) (q :: qs) (by simp), List.cons_append,
        @List.dropLast_cons_of_ne_nil _ p (q :: qs) (by simp),
        lastPart_cons p (q :: qs) (by simp), List.cons_append, consHead]

/-- Feeding one chunk `c₁ ++ c₂` is the same as feeding `c₁` then `c₂`:
the emitted blocks concatenate and the final buffers agree. -/
theorem splitStreamTransform_append (b c₁ c₂ : List Char) :
    splitStreamTransform b (c₁ ++ c₂) =
      ((splitStreamTransform b c₁).1 ++
        (splitStreamTransform (splitStreamTransform b c₁).2 c₂).1,
       (splitStreamTransform (splitStreamTransform b c₁).2 c₂).2) := by
  have key : splitNN (b ++ (c₁ ++ c₂)) =
      (splitNN (b ++ c₁)).dropLast ++ splitNN (lastPart (splitNN (b ++ c₁)) ++ c₂) := by
    rw [← List.append_assoc]
    exact splitNN_append (b ++ c₁) c₂
  simp only [splitStreamTransform]
  rw [key, dropLast_append_ne_nil _ _ (splitNN_ne_nil _), List.filter_append,
    lastPart_append _ _ (splitNN_ne_nil _)]

/-- Feeding a non-empty chunk sequence is the same as feeding its
concatenation as one chunk. -/
theorem feedAll_cons (b c : List Char) (chunks : List (List Char)) :
    feedAll b (c :: chunks) = splitStreamTransform b (c ++ chunks.flatten) := by
  induction chunks generalizing b c with
  | nil => simp [feedAll]
  | cons c' cs ih =>
    show ((splitStreamTransform b c).1 ++ (feedAll (splitStreamTransform b c).2 (c' :: cs)).1,
        (feedAll (splitStreamTransform b c).2 (c' :: cs)).2) = _
    rw [ih, List.flatten_cons, ← List.append_assoc]
    rw [splitStreamTransform_append b (c ++ c') cs.flatten]
    rw [splitStreamTransform_append b c c']
    rw [splitStreamTransform_append (splitStreamTransform b c).2 c' cs.flatten]
    simp [List.append_assoc]

/-- The full splitter stage (including the final flush) is independent of
chunking: any chunk sequence gives the same blocks as its concatenation. -/
theorem runSplitStream_single (chunks : List (List Char)) :
    runSplitStream chunks = runSplitStream [chunks.flatten] := by
  cases chunks with
  | nil => rfl
  | cons c cs =>
    simp only [runSplitStream, feedAll_cons, List.flatten_cons, List.flatten_nil,
      List.append_nil]

/-- C1: for every complete SSE input text and every fragmentation of it
into an ordered chunk sequence, feeding the chunks through the splitter
stage followed by the field parser stage, with a final flush, yields the
same ordered sequence of field maps as feeding the whole text as one
chunk. -/
theorem chunk_boundary_independence (text : List Char) (chunks : List (List Char))
    (h : chunks.flatten = text) : runPipeline chunks = runPipeline [text] := by
  subst h
  unfold runPipeline
  rw [runSplitStream_single]

/-- Witness for C1: a two-event text fragmented at block-unaligned
boundaries parses identically to the unfragmented text. -/
theorem chunk_boundary_independence_witness :
    runPipeline [toL "event: mes", toL "sage\ndata: hi\n\nda", toL "ta: ok\n\n"] =
      runPipeline [toL "event: message\ndata: hi\n\ndata: ok\n\n"] :=
  chunk_boundary_independence _ _ (by decide)

/-! Consumption adapter lemmas. -/

/-- An uncancelled pump over an error-free finite source delivers exactly
the truthy values in order, reads once per value plus the final `done`
read, and completes exactly once. -/
theorem pump_vals (vals : List JSValue) :
    pump (vals.map ReadOutcome.val) none = ⟨iterate vals, 1, vals.length + 1⟩ := by
  induction vals with
  | nil => rfl
  | cons v rest ih =>
    show (let r := pump (rest.map ReadOutcome.val) none
      (⟨if truthy v then v :: r.delivered else r.delivered, r.completions,
        r.readsDone + 1⟩ : PumpResult)) = _
    rw [ih]
    simp [iterate]

/-- C3: over any finite (error-free) source, `collectAll` resolves with
exactly the sequence of values obtained by iterating the pull-style
async iterator to completion, and resolution does occur (the completion
callback fires exactly once). -/
theorem collect_all_eq_iterate (vals : List JSValue) :
    collectAll (vals.map ReadOutcome.val) = iterate vals ∧
      (pump (vals.map ReadOutcome.val) none).completions = 1 := by
  unfold collectAll
  rw [pump_vals]
  exact ⟨rfl, rfl⟩

/-- C2: after cancellation at any point (`t` reads fully processed before
the `subscribing` flag is nulled, `b` recording whether one more read was
already in flight), the delivered values are exactly those of an
uncancelled run over the first `t` reads — nothing is delivered once the
flag is observed, in particular not the value of an in-flight read — and
the loop performs at most one read beyond the cancellation point. -/
theorem cancellation_stops_delivery (outs : List ReadOutcome) (t : Nat) (b : Bool) :
    (pump outs (some (t, b))).delivered = (pump (outs.take t) none).delivered ∧
      (pump outs (some (t, b))).readsDone ≤ t + 1 := by
  induction outs generalizing t with
  | nil =>
    rcases t with _ | t
    · cases b <;> exact ⟨rfl, by simp [pump]⟩
    · exact ⟨rfl, by simp [pump]⟩
  | cons o rest ih =>
    rcases t with _ | t
    · cases b <;> cases o <;> exact ⟨rfl, by simp [pump]⟩
    · cases o with
      | err => exact ⟨rfl, by simp [pump]⟩
      | val v =>
        obtain ⟨ih1, ih2⟩ := ih t
        constructor
        · show (if truthy v then v :: (pump rest (some (t, b))).delivered
              else (pump rest (some (t, b))).delivered) = _
          rw [ih1]
          show _ = (if truthy v then v :: (pump (rest.take t) none).delivered
              else (pump (rest.take t) none).delivered)
          rfl
        · show (pump rest (some (t, b))).readsDone + 1 ≤ t + 1 + 1
          omega

/-- C4: a read error in push mode is caught: the values read before the
error are delivered normally (none for the failed read, none after it),
the pump stops reading, and the completion callback fires; moreover the
completion callback never fires more than once in any run. -/
theorem read_error_completes (pre : List JSValue) (post : List ReadOutcome) :
    pump (pre.map ReadOutcome.val ++ ReadOutcome.err :: post) none =
      ⟨iterate pre, 1, pre.length + 1⟩ ∧
      ∀ outs c, (pump outs c).completions ≤ 1 := by
  constructor
  · induction pre with
    | nil => rfl
    | cons v rest ih =>
      show (let r := pump (rest.map ReadOutcome.val ++ ReadOutcome.err :: post) none
        (⟨if truthy v then v :: r.delivered else r.delivered, r.completions,
          r.readsDone + 1⟩ : PumpResult)) = _
      rw [ih]
      simp [iterate]
  · intro outs
    induction outs with
    | nil =>
      intro c
      rcases c with _ | ⟨_ | t, b⟩ <;> first
        | exact Nat.le_refl 1
        | cases b <;> simp [pump]
    | cons o rest ih =>
      intro c
      cases o with
      | err =>
        rcases c with _ | ⟨_ | t, b⟩ <;> first
          | exact Nat.le_refl 1
          | cases b <;> simp [pump]
      | val v =>
        rcases c with _ | ⟨_ | t, b⟩
        · exact ih none
        · cases b
          · simp [pump]
          · simp [pump]
        · exact ih (some (t, b))

/-- C10: a falsy value (empty string, `0`, `null`, ...) in the output
stream is skipped by both the pull-style iterator and the push-style
subscription, while consumption of the surrounding values continues
unchanged (including completion). -/
theorem falsy_values_skipped (pre post : List JSValue) (v : JSValue)
    (h : truthy v = false) :
    iterate (pre ++ v :: post) = iterate (pre ++ post) ∧
      (pump ((pre ++ v :: post).map ReadOutcome.val) none).delivered =
        (pump ((pre ++ post).map ReadOutcome.val) none).delivered ∧
      (pump ((pre ++ v :: post).map ReadOutcome.val) none).completions =
        (pump ((pre ++ post).map ReadOutcome.val) none).completions := by
  have hiter : iterate (pre ++ v :: post) = iterate (pre ++ post) := by
    induction pre with
    | nil => simp [iterate, h]
    | cons w rest ih =>
      show (if truthy w then w :: iterate (rest ++ v :: post)
          else iterate (rest ++ v :: post)) = _
      rw [ih]
      rfl
  refine ⟨hiter, ?_, ?_⟩
  · rw [pump_vals, pump_vals, hiter]
  · rw [pump_vals, pump_vals]

/-- Witness for C10 at a concrete falsy value: the empty string emitted
between two truthy values is skipped by both consumption styles. -/
theorem falsy_values_skipped_witness :
    iterate [JSValue.vStr (toL "a"), JSValue.vStr [], JSValue.vNum 1] =
        iterate [JSValue.vStr (toL "a"), JSValue.vNum 1] ∧
      (pump ([JSValue.vStr (toL "a"), JSValue.vStr [], JSValue.vNum 1].map
          ReadOutcome.val) none).delivered =
        (pump ([JSValue.vStr (toL "a"), JSValue.vNum 1].map ReadOutcome.val)
          none).delivered ∧
      (pump ([JSValue.vStr (toL "a"), JSValue.vStr [], JSValue.vNum 1].map
          ReadOutcome.val) none).completions =
        (pump ([JSValue.vStr (toL "a"), JSValue.vNum 1].map ReadOutcome.val)
          none).completions :=
  falsy_values_skipped [JSValue.vStr (toL "a")] [JSValue.vNum 1] (JSValue.vStr [])
    (by decide)

/-! Field parser lemmas. -/

theorem contains_iff (l : List Char) (a : Char) : l.contains a = true ↔ a ∈ l :=
  List.elem_iff

theorem take_findIdx_not (p : Char → Bool) (l : List Char) :
    ∀ c ∈ l.take (l.findIdx p), p c = false := by
  induction l with
  | nil => simp
  | cons a l ih =>
    by_cases ha : p a = true
    · simp [List.findIdx_cons, ha]
    · have ha' : p a = false := by simpa using ha
      simp only [List.findIdx_cons, ha', cond_false, List.take_succ_cons]
      intro c hc
      rcases List.mem_cons.mp hc with rfl | hc
      · exact ha'
      · exact ih c hc

/-- The segment before the first colon contains no colon. -/
theorem take_findIdx_contains_false (line : List Char) :
    (line.take (line.findIdx (fun c => c == ':'))).contains ':' = false := by
  cases hc : (line.take (line.findIdx (fun c => c == ':'))).contains ':'
  · rfl
  · have hmem := (contains_iff _ _).mp hc
    have h2 := take_findIdx_not (fun c => c == ':') line ':' hmem
    simp at h2

/-- A line containing a colon decomposes as the segment before the first
colon, the colon, and the remainder. -/
theorem contains_colon_decomp (line : List Char) (hc : line.contains ':' = true) :
    line.take (line.findIdx (fun c => c == ':')) ++
      ':' :: line.drop (line.findIdx (fun c => c == ':') + 1) = line := by
  induction line with
  | nil => simp at hc
  | cons a l ih =>
    by_cases ha : a = ':'
    · subst ha
      simp [List.findIdx_cons]
    · have ha' : (a == ':') = false := by simp [ha]
      have hc' : l.contains ':' = true := by
        have hm := (contains_iff _ _).mp hc
        rcases List.mem_cons.mp hm with h1 | h1
        · exact absurd h1.symm ha
        · exact (contains_iff _ _).mpr h1
      simp only [List.findIdx_cons, ha', cond_false, List.take_succ_cons,
        List.drop_succ_cons, List.cons_append]
      rw [ih hc']

theorem splitLines_ne_nil (l : List Char) : splitLines l ≠ [] := by
  induction l with
  | nil => simp [splitLines]
  | cons a l ih =>
    by_cases ha : a = '\n'
    · simp [splitLines, ha]
    · rw [splitLines, if_neg ha]
      exact consHead_ne_nil _ _

/-- A string with no newline is a single line. -/
theorem splitLines_no_newline (l : List Char) (h : l.contains '\n' = false) :
    splitLines l = [l] := by
  induction l with
  | nil => rfl
  | cons a l ih =>
    have h' : ('\n' : Char) ∉ a :: l := by
      intro hm
      rw [(contains_iff _ _).mpr hm] at h
      cases h
    have ha : ¬ a = '\n' := fun e => h' (e ▸ List.mem_cons_self a l)
    have hl : l.contains '\n' = false := by
      cases hcl : l.contains '\n'
      · rfl
      · exact absurd (List.mem_cons_of_mem a ((contains_iff _ _).mp hcl)) h'
    rw [splitLines, if_neg ha, ih hl, consHead]

/-- Every character of every line comes from the split string. -/
theorem splitLines_chars (s : List Char) :
    ∀ l ∈ splitLines s, ∀ c ∈ l, c ∈ s := by
  induction s with
  | nil =>
    intro l hl c hc
    simp [splitLines] at hl
    subst hl
    cases hc
  | cons a s ih =>
    intro l hl c hcl
    by_cases ha : a = '\n'
    · rw [splitLines, if_pos ha] at hl
      rcases List.mem_cons.mp hl with rfl | hl
      · cases hcl
      · exact List.mem_cons_of_mem a (ih l hl c hcl)
    · rw [splitLines, if_neg ha] at hl
      rcases hS : splitLines s with _ | ⟨p, ps⟩
      · exact absurd hS (splitLines_ne_nil s)
      · rw [hS, consHead] at hl
        rcases List.mem_cons.mp hl with rfl | hl
        · rcases List.mem_cons.mp hcl with rfl | hcl
          · exact List.mem_cons_self _ _
          · exact List.mem_cons_of_mem a
              (ih p (by rw [hS]; exact List.mem_cons_self _ _) c hcl)
        · exact List.mem_cons_of_mem a
            (ih l (by rw [hS]; exact List.mem_cons_of_mem p hl) c hcl)

/-- Lines without a colon leave the accumulated object untouched. -/
theorem foldl_no_colon (lines : List (List Char)) (obj : SSEObject)
    (h : ∀ l ∈ lines, l.contains ':' = false) :
    lines.foldl processLine obj = obj := by
  induction lines generalizing obj with
  | nil => rfl
  | cons l ls ih =>
    rw [List.foldl_cons]
    have hskip : processLine obj l = obj := by
      unfold processLine
      rw [h l (List.mem_cons_self _ _)]
      rfl
    rw [hskip]
    exact ih _ (fun l' hl' => h l' (List.mem_cons_of_mem _ hl'))

/-- An all-blank string trims to nothing. -/
theorem jsTrim_nil_all_ws (s : List Char) (h : jsTrim s = []) :
    ∀ c ∈ s, isJsWhitespace c = true := by
  have h1 : s.dropWhile isJsWhitespace = [] := by
    by_contra hne
    have h2 : (s.dropWhile isJsWhitespace).reverse.dropWhile isJsWhitespace = [] := by
      have := congrArg List.reverse h
      simpa [jsTrim] using this
    have hall := List.dropWhile_eq_nil_iff.mp h2
    have hx := hall _ (List.mem_reverse.mpr (List.head_mem hne))
    rw [List.head_dropWhile_not isJsWhitespace s hne] at hx
    simp at hx
  intro c hc
  have hs : s.takeWhile isJsWhitespace = s := by
    have := List.takeWhile_append_dropWhile isJsWhitespace s
    rw [h1, List.append_nil] at this
    exact this
  exact List.mem_takeWhile_imp (by rw [hs]; exact hc)

/-- A blank (whitespace-only) block parses to no field map. -/
theorem splitEventPart_all_ws (s : List Char)
    (h : ∀ c ∈ s, isJsWhitespace c = true) : splitEventPart s = none := by
  have hnc : ∀ l ∈ splitLines s, l.contains ':' = false := by
    intro l hl
    cases hc : l.contains ':'
    · rfl
    · have hm : (':' : Char) ∈ s := splitLines_chars s l hl ':' ((contains_iff _ _).mp hc)
      exact absurd (h ':' hm) (by decide)
  simp only [splitEventPart]
  rw [foldl_no_colon _ _ hnc]
  rfl

/-- A block parsed to `some` map always has at least one field. -/
theorem splitEventPart_some_ne_nil (b : List Char) (m : SSEObject)
    (h : splitEventPart b = some m) : m ≠ [] := by
  simp only [splitEventPart] at h
  split at h
  · cases h
  · next hne =>
    obtain rfl := Option.some.inj h
    intro he
    rw [he] at hne
    exact hne rfl

/-- Every block enqueued by the transform loop is non-blank. -/
theorem feedAll_valid (b : List Char) (chunks : List (List Char)) (blk : List Char)
    (h : blk ∈ (feedAll b chunks).1) : isValidString blk = true := by
  induction chunks generalizing b with
  | nil => cases h
  | cons c cs ih =>
    have h' : blk ∈ (splitStreamTransform b c).1 ++
        (feedAll (splitStreamTransform b c).2 cs).1 := h
    rcases List.mem_append.mp h' with h1 | h1
    · exact (List.mem_filter.mp h1).2
    · exact ih _ h1

/-- Every block emitted by the splitter stage (flush included) is non-blank. -/
theorem runSplitStream_valid (chunks : List (List Char)) (blk : List Char)
    (h : blk ∈ runSplitStream chunks) : isValidString blk = true := by
  have h' : blk ∈ (feedAll [] chunks).1 ++
      (splitStreamFlush (feedAll [] chunks).2).1 := h
  rcases List.mem_append.mp h' with h1 | h1
  · exact feedAll_valid _ _ _ h1
  · by_cases hv : isValidString (feedAll [] chunks).2
    · have h2 : blk ∈ [(feedAll [] chunks).2] := by
        simpa [splitStreamFlush, hv] using h1
      rw [List.mem_singleton.mp h2]
      exact hv
    · simp [splitStreamFlush, hv] at h1

/-! Claim theorems for the parser stage. -/

/-- C6: in a field line containing at least one separator, the key is
exactly the text before the first colon (that segment contains no colon),
the value is the text after that first colon with whitespace trimmed at
both ends (later colons are inside the kept remainder, hence preserved
verbatim), and the parsed single-line block is exactly that one field. -/
theorem first_separator_wins (line : List Char)
    (hn : line.contains '\n' = false)
    (hc : line.contains ':' = true)
    (hk : isValidString (line.take (line.findIdx (fun c => c == ':'))) = true) :
    (line.take (line.findIdx (fun c => c == ':'))).contains ':' = false ∧
    line.take (line.findIdx (fun c => c == ':')) ++
      ':' :: line.drop (line.findIdx (fun c => c == ':') + 1) = line ∧
    splitEventPart line =
      some [(line.take (line.findIdx (fun c => c == ':')),
        jsTrim (line.drop (line.findIdx (fun c => c == ':') + 1)))] := by
  refine ⟨take_findIdx_contains_false line, contains_colon_decomp line hc, ?_⟩
  simp only [splitEventPart]
  rw [splitLines_no_newline line hn]
  simp only [List.foldl_cons, List.foldl_nil, processLine]
  rw [hc, hk]
  simp [setField]

/-- Witness for C6 at the example line of the spec: the URL keeps its inner
colons. -/
theorem first_separator_wins_witness :
    (((toL "data: https://a.com:8080/x").take
        ((toL "data: https://a.com:8080/x").findIdx (fun c => c == ':'))).contains ':'
      = false) ∧
    (toL "data: https://a.com:8080/x").take
        ((toL "data: https://a.com:8080/x").findIdx (fun c => c == ':')) ++
      ':' :: (toL "data: https://a.com:8080/x").drop
        ((toL "data: https://a.com:8080/x").findIdx (fun c => c == ':') + 1) =
      toL "data: https://a.com:8080/x" ∧
    splitEventPart (toL "data: https://a.com:8080/x") =
      some [((toL "data: https://a.com:8080/x").take
          ((toL "data: https://a.com:8080/x").findIdx (fun c => c == ':')),
        jsTrim ((toL "data: https://a.com:8080/x").drop
          ((toL "data: https://a.com:8080/x").findIdx (fun c => c == ':') + 1)))] :=
  first_separator_wins (toL "data: https://a.com:8080/x")
    (by decide) (by decide) (by decide)

example : splitEventPart (toL "data: https://a.com:8080/x") =
    some [(toL "data", toL "https://a.com:8080/x")] := by decide

/-- C7: every block emitted by the splitter is non-blank, a blank block
parses to no field map, a block parsing to `some` map has at least one
field, and hence the pipeline output never contains an empty field map. -/
theorem no_empty_field_maps (chunks : List (List Char)) (blk b bb : List Char)
    (m m' : SSEObject)
    (hblk : blk ∈ runSplitStream chunks)
    (hb : splitEventPart b = some m)
    (hm : m' ∈ runPipeline chunks)
    (hbb : isValidString bb = false) :
    isValidString blk = true ∧ m ≠ [] ∧ m' ≠ [] ∧ splitEventPart bb = none := by
  refine ⟨runSplitStream_valid chunks blk hblk,
    splitEventPart_some_ne_nil b m hb, ?_, ?_⟩
  · obtain ⟨b', hb', hsome⟩ := List.mem_filterMap.mp hm
    exact splitEventPart_some_ne_nil b' m' hsome
  · have htr : jsTrim bb = [] := by
      have := hbb
      unfold isValidString at this
      simpa [List.isEmpty_iff] using this
    exact splitEventPart_all_ws bb (jsTrim_nil_all_ws bb htr)

/-- Witness for C7 at a concrete one-event stream and a blank block. -/
theorem no_empty_field_maps_witness :
    isValidString (toL "a:1") = true ∧
    [(toL "a", toL "1")] ≠ ([] : SSEObject) ∧
    [(toL "a", toL "1")] ≠ ([] : SSEObject) ∧
    splitEventPart (toL "  ") = none :=
  no_empty_field_maps [toL "a:1\n\n"] (toL "a:1") (toL "a:1") (toL "  ")
    [(toL "a", toL "1")] [(toL "a", toL "1")]
    (by decide) (by decide) (by decide) (by decide)

/-! Field-map update lemmas, for duplicate keys. -/

theorem any_key_iff (m : SSEObject) (k : List Char) :
    m.any (fun p => p.1 == k) = true ↔ k ∈ m.map Prod.fst := by
  rw [List.any_eq_true]
  simp [List.mem_map, beq_iff_eq]

/-- The key list after a field store: unchanged if the key was present,
the key appended otherwise. -/
theorem setField_keys (m : SSEObject) (k v : List Char) :
    (setField m k v).map Prod.fst =
      if k ∈ m.map Prod.fst then m.map Prod.fst else m.map Prod.fst ++ [k] := by
  unfold setField
  by_cases hk : k ∈ m.map Prod.fst
  · rw [if_pos ((any_key_iff m k).mpr hk), if_pos hk, List.map_map]
    refine List.map_congr_left ?_
    intro p hp
    by_cases hpk : p.1 = k <;> simp [hpk]
  · rw [if_neg (fun h => hk ((any_key_iff m k).mp h)), if_neg hk, List.map_append]
    rfl

/-- After a field store, every entry carrying the stored key holds the
stored (last-written) value. -/
theorem setField_value (m : SSEObject) (k v : List Char)
    (p : List Char × List Char) (hp : p ∈ setField m k v) (hk : p.1 = k) :
    p.2 = v := by
  unfold setField at hp
  by_cases hany : m.any (fun q => q.1 == k) = true
  · rw [if_pos hany] at hp
    obtain ⟨q, hq, hpe⟩ := List.mem_map.mp hp
    by_cases hqk : (q.1 == k) = true
    · rw [if_pos hqk] at hpe
      rw [← hpe]
    · rw [if_neg hqk] at hpe
      subst hpe
      exact absurd (by simp [hk]) hqk
  · rw [if_neg hany] at hp
    rcases List.mem_append.mp hp with h1 | h1
    · exact absurd (List.any_eq_true.mpr ⟨p, h1, by simp [hk]⟩) hany
    · rw [List.mem_singleton.mp h1]

theorem setField_keys_nodup (m : SSEObject) (k v : List Char)
    (h : (m.map Prod.fst).Nodup) : ((setField m k v).map Prod.fst).Nodup := by
  rw [setField_keys]
  by_cases hk : k ∈ m.map Prod.fst
  · rw [if_pos hk]
    exact h
  · rw [if_neg hk]
    rw [List.nodup_append]
    exact ⟨h, List.nodup_singleton k, by simp [List.disjoint_singleton, hk]⟩

theorem processLine_keys_nodup (obj : SSEObject) (line : List Char)
    (h : (obj.map Prod.fst).Nodup) :
    ((processLine obj line).map Prod.fst).Nodup := by
  simp only [processLine]
  split
  · exact h
  · split
    · exact setField_keys_nodup _ _ _ h
    · exact h

theorem foldl_keys_nodup (lines : List (List Char)) (obj : SSEObject)
    (h : (obj.map Prod.fst).Nodup) :
    ((lines.foldl processLine obj).map Prod.fst).Nodup := by
  induction lines generalizing obj with
  | nil => exact h
  | cons l ls ih =>
    rw [List.foldl_cons]
    exact ih _ (processLine_keys_nodup obj l h)

/-- The keys of any emitted field map are pairwise distinct. -/
theorem splitEventPart_keys_nodup (blk : List Char) (m : SSEObject)
    (h : splitEventPart blk = some m) : (m.map Prod.fst).Nodup := by
  simp only [splitEventPart] at h
  split at h
  · cases h
  · obtain rfl := Option.some.inj h
    exact foldl_keys_nodup _ _ (by simp)

/-! Enumeration-order lemmas. -/

theorem insertKey_perm (s : List Char) (l : List (List Char)) :
    List.Perm (insertKey s l) (s :: l) := by
  induction l with
  | nil => exact List.Perm.refl _
  | cons t ts ih =>
    by_cases h : keyNum s ≤ keyNum t
    · simp only [insertKey, if_pos h]
      exact List.Perm.refl _
    · simp only [insertKey, if_neg h]
      exact List.Perm.trans (List.Perm.cons t ih) (List.Perm.swap s t ts)

theorem sortKeys_perm (l : List (List Char)) : List.Perm (sortKeys l) l := by
  induction l with
  | nil => exact List.Perm.refl _
  | cons s ss ih =>
    exact List.Perm.trans (insertKey_perm s (sortKeys ss)) (List.Perm.cons s ih)

theorem insertKey_pairwise (s : List Char) (l : List (List Char))
    (h : l.Pairwise (fun a b => keyNum a ≤ keyNum b)) :
    (insertKey s l).Pairwise (fun a b => keyNum a ≤ keyNum b) := by
  induction l with
  | nil => simp [insertKey]
  | cons t ts ih =>
    rw [List.pairwise_cons] at h
    obtain ⟨ht, hts⟩ := h
    by_cases hle : keyNum s ≤ keyNum t
    · simp only [insertKey, if_pos hle]
      rw [List.pairwise_cons]
      refine ⟨?_, ?_⟩
      · intro b hb
        rcases List.mem_cons.mp hb with rfl | hb
        · exact hle
        · exact le_trans hle (ht b hb)
      · rw [List.pairwise_cons]
        exact ⟨ht, hts⟩
    · simp only [insertKey, if_neg hle]
      rw [List.pairwise_cons]
      refine ⟨?_, ih hts⟩
      intro b hb
      rcases List.mem_cons.mp ((insertKey_perm s ts).mem_iff.mp hb) with rfl | hb
      · omega
      · exact ht b hb

theorem sortKeys_pairwise (l : List (List Char)) :
    (sortKeys l).Pairwise (fun a b => keyNum a ≤ keyNum b) := by
  induction l with
  | nil => exact List.Pairwise.nil
  | cons s ss ih => exact insertKey_pairwise s _ ih

theorem sortKeys_all (l : List (List Char)) (p : List Char → Bool)
    (h : ∀ x ∈ l, p x = true) : ∀ x ∈ sortKeys l, p x = true :=
  fun x hx => h x ((sortKeys_perm l).mem_iff.mp hx)

/-- The array-index segment of the enumeration is exactly the sorted
index-like keys. -/
theorem jsKeys_filter_idx (m : SSEObject) :
    (jsKeys m).filter isArrayIndex =
      sortKeys ((m.map Prod.fst).filter isArrayIndex) := by
  unfold jsKeys
  rw [List.filter_append]
  have h1 : (sortKeys ((m.map Prod.fst).filter isArrayIndex)).filter isArrayIndex =
      sortKeys ((m.map Prod.fst).filter isArrayIndex) := by
    rw [List.filter_eq_self]
    exact sortKeys_all _ _ (fun x hx => (List.mem_filter.mp hx).2)
  have h2 : ((m.map Prod.fst).filter
      (fun s => !(isArrayIndex s))).filter isArrayIndex = [] := by
    rw [List.filter_eq_nil_iff]
    intro a ha
    have hna := (List.mem_filter.mp ha).2
    simp at hna
    simp [hna]
  rw [h1, h2, List.append_nil]

/-- The non-index keys enumerate exactly in property creation order. -/
theorem jsKeys_filter_not_idx (m : SSEObject) :
    (jsKeys m).filter (fun s => !(isArrayIndex s)) =
      (m.map Prod.fst).filter (fun s => !(isArrayIndex s)) := by
  unfold jsKeys
  rw [List.filter_append]
  have h1 : (sortKeys ((m.map Prod.fst).filter isArrayIndex)).filter
      (fun s => !(isArrayIndex s)) = [] := by
    rw [List.filter_eq_nil_iff]
    intro a ha
    have hia := sortKeys_all _ isArrayIndex
      (fun x hx => (List.mem_filter.mp hx).2) a ha
    simp [hia]
  have h2 : ((m.map Prod.fst).filter (fun s => !(isArrayIndex s))).filter
      (fun s => !(isArrayIndex s)) =
      (m.map Prod.fst).filter (fun s => !(isArrayIndex s)) := by
    rw [List.filter_eq_self]
    exact fun a ha => (List.mem_filter.mp ha).2
  rw [h1, h2, List.nil_append]

/-- The enumeration lists exactly the stored keys. -/
theorem jsKeys_perm (m : SSEObject) :
    List.Perm (jsKeys m) (m.map Prod.fst) := by
  unfold jsKeys
  exact List.Perm.trans
    ((sortKeys_perm _).append_right _)
    (List.filter_append_perm _ _)

theorem jsKeys_nodup (m : SSEObject) (h : (m.map Prod.fst).Nodup) :
    (jsKeys m).Nodup :=
  ((jsKeys_perm m).nodup_iff).mpr h

/-- C8 counterexample: the claim asserts that keys appear in the emitted
map in first-encounter order, but ECMA-262 property enumeration lists
array-index-like keys first.  For the block `event:a\nevent:b\n0:x`
(which duplicates the key `event`) the first-encounter key order is
`event`, `0`, while the observable enumeration of the emitted object is
`0`, `event`. -/
theorem encounter_order_counterexample :
    splitEventPart (toL "event:a\nevent:b\n0:x") =
      some [(toL "event", toL "b"), (toL "0", toL "x")] ∧
    jsKeys [(toL "event", toL "b"), (toL "0", toL "x")] = [toL "0", toL "event"] ∧
    [toL "0", toL "event"] ≠ [toL "event", toL "0"] :=
  ⟨by decide, by decide, by decide⟩

/-- C8 (amended): a duplicated key within one block is stored exactly
once with the last-written value, and the observable key enumeration of
the emitted map lists each key exactly once — array-index-like keys
first in ascending numeric order, then all remaining keys in the order
they were first encountered (stored keys are unchanged on overwrite and
appended on first occurrence); the block `event:a\nevent:b` parses to
exactly `event = b`. -/
theorem duplicate_key_overwrite (m : SSEObject) (k v : List Char)
    (p : List Char × List Char) (blk : List Char) (m' : SSEObject)
    (hp : p ∈ setField m k v) (hk : p.1 = k)
    (hblk : splitEventPart blk = some m') :
    p.2 = v ∧
    (setField m k v).map Prod.fst =
      (if k ∈ m.map Prod.fst then m.map Prod.fst else m.map Prod.fst ++ [k]) ∧
    (m'.map Prod.fst).Nodup ∧
    (jsKeys m').Nodup ∧
    List.Perm (jsKeys m') (m'.map Prod.fst) ∧
    (jsKeys m').filter (fun s => !(isArrayIndex s)) =
      (m'.map Prod.fst).filter (fun s => !(isArrayIndex s)) ∧
    jsKeys m' = (jsKeys m').filter isArrayIndex ++
      (jsKeys m').filter (fun s => !(isArrayIndex s)) ∧
    ((jsKeys m').filter isArrayIndex).Pairwise (fun a b => keyNum a ≤ keyNum b) ∧
    splitEventPart (toL "event:a\nevent:b") = some [(toL "event", toL "b")] := by
  have hnd := splitEventPart_keys_nodup blk m' hblk
  refine ⟨setField_value m k v p hp hk, setField_keys m k v, hnd,
    jsKeys_nodup m' hnd, jsKeys_perm m', jsKeys_filter_not_idx m', ?_, ?_, by decide⟩
  · rw [jsKeys_filter_idx, jsKeys_filter_not_idx]
    rfl
  · rw [jsKeys_filter_idx]
    exact sortKeys_pairwise _

/-- Witness for C8: overwriting the key `event`, and a parsed block whose
map holds a non-index key followed by the index-like key `0`. -/
theorem duplicate_key_overwrite_witness :
    ((toL "event", toL "b") : List Char × List Char).2 = toL "b" ∧
    (setField [(toL "event", toL "a")] (toL "event") (toL "b")).map Prod.fst =
      (if toL "event" ∈ ([(toL "event", toL "a")] : SSEObject).map Prod.fst
        then ([(toL "event", toL "a")] : SSEObject).map Prod.fst
        else ([(toL "event", toL "a")] : SSEObject).map Prod.fst ++ [toL "event"]) ∧
    (([(toL "event", toL "a"), (toL "0", toL "x")] : SSEObject).map
      Prod.fst).Nodup ∧
    (jsKeys [(toL "event", toL "a"), (toL "0", toL "x")]).Nodup ∧
    List.Perm (jsKeys [(toL "event", toL "a"), (toL "0", toL "x")])
      (([(toL "event", toL "a"), (toL "0", toL "x")] : SSEObject).map Prod.fst) ∧
    (jsKeys [(toL "event", toL "a"), (toL "0", toL "x")]).filter
        (fun s => !(isArrayIndex s)) =
      (([(toL "event", toL "a"), (toL "0", toL "x")] : SSEObject).map
        Prod.fst).filter (fun s => !(isArrayIndex s)) ∧
    jsKeys [(toL "event", toL "a"), (toL "0", toL "x")] =
      (jsKeys [(toL "event", toL "a"), (toL "0", toL "x")]).filter isArrayIndex ++
      (jsKeys [(toL "event", toL "a"), (toL "0", toL "x")]).filter
        (fun s => !(isArrayIndex s)) ∧
    ((jsKeys [(toL "event", toL "a"), (toL "0", toL "x")]).filter
      isArrayIndex).Pairwise (fun a b => keyNum a ≤ keyNum b) ∧
    splitEventPart (toL "event:a\nevent:b") = some [(toL "event", toL "b")] :=
  duplicate_key_overwrite [(toL "event", toL "a")] (toL "event") (toL "b")
    (toL "event", toL "b") (toL "event:a\n0:x")
    [(toL "event", toL "a"), (toL "0", toL "x")]
    (by decide) (by decide) (by decide)

/-- C9: a line without the key/value separator is skipped (the fold over
the lines of the block is unchanged by its presence) and parsing of the other
lines proceeds; the parse is total, never a failure, as on the example
block of the spec with an interior malformed line. -/
theorem malformed_line_skipped (pre post : List (List Char)) (line : List Char)
    (obj : SSEObject) (h : line.contains ':' = false) :
    (pre ++ line :: post).foldl processLine obj =
      (pre ++ post).foldl processLine obj ∧
    splitEventPart (toL "data:hi\nnotakeyvalue\nid:1") =
      some [(toL "data", toL "hi"), (toL "id", toL "1")] := by
  constructor
  · rw [List.foldl_append, List.foldl_append, List.foldl_cons]
    have hskip : processLine (pre.foldl processLine obj) line =
        pre.foldl processLine obj := by
      unfold processLine
      rw [h]
      rfl
    rw [hskip]
  · decide

/-- Witness for C9: skipping a concrete separator-free line between two
well-formed lines. -/
theorem malformed_line_skipped_witness :
    ([toL "a:1"] ++ toL "nocolon" :: [toL "b:2"]).foldl processLine [] =
      ([toL "a:1"] ++ [toL "b:2"]).foldl processLine [] ∧
    splitEventPart (toL "data:hi\nnotakeyvalue\nid:1") =
      some [(toL "data", toL "hi"), (toL "id", toL "1")] :=
  malformed_line_skipped [toL "a:1"] [toL "b:2"] (toL "nocolon") [] (by decide)

/-! The flush claim, C5. -/

/-- C5 counterexample: the claim also asserts that the pending buffer is
empty after the flush, but the flush callback never reassigns the buffer;
at the concrete non-blank buffer `"x"` the buffer after flushing is still
`"x"`, not empty. -/
theorem flush_does_not_clear_buffer : (splitStreamFlush (toL "x")).2 ≠ [] := by
  decide

/-- C5 amended: on upstream completion the flush emits the pending buffer
as one final event block if and only if the buffer is non-blank (non-empty
after trimming), and it leaves the buffer variable unchanged (the code
never clears it; it is simply never used again). -/
theorem flush_emits_iff_nonblank (buffer : List Char) :
    ((splitStreamFlush buffer).1 = [buffer] ↔ jsTrim buffer ≠ []) ∧
    ((splitStreamFlush buffer).1 = [] ↔ jsTrim buffer = []) ∧
    (splitStreamFlush buffer).2 = buffer := by
  unfold splitStreamFlush isValidString
  by_cases hb : jsTrim buffer = []
  · rw [List.isEmpty_iff.mpr hb]
    simp [hb]
  · have : (jsTrim buffer).isEmpty = false := by
      cases he : (jsTrim buffer).isEmpty
      · rfl
      · exact absurd (List.isEmpty_iff.mp he) hb
    rw [this]
    simp [hb]

end SSE
